import Mathlib

/-!
Shallow embedding of the helios search engine (`src/lib.rs`, `src/main.rs`,
`server/src/main.rs`).

Rust strings are modelled as lists of Unicode scalar values (`List Nat`).
The character predicates (`is_alphanumeric`, `is_whitespace`) and the
lowercase mapping are modelled on the ASCII range together with the
documented non-ASCII special case that matters for the normalizer's
algebra: U+0130 LATIN CAPITAL LETTER I WITH DOT ABOVE, an alphanumeric
character whose `str::to_lowercase` image is the two-character string
`"i\u{307}"` (U+0307 COMBINING DOT ABOVE, not alphanumeric).  Remaining
non-ASCII characters are left unchanged by lowercasing and classified as
non-alphanumeric.  Filesystem paths are lists of components, and the
filesystem itself is a function from paths to optional file contents
(`none` models a `read_to_string` failure).
-/

namespace Helios

/-- A Rust string, as the list of its character code points. -/
abbrev Str := List Nat

/-- Code points of a Lean string literal (used for concrete inputs). -/
def codes (s : String) : Str := s.data.map Char.toNat

/-- Model of Rust `char::is_alphanumeric` on the ASCII range extended with
U+0130 (İ, code 304, a letter); other non-ASCII characters — in particular
U+0307 COMBINING DOT ABOVE (775), a mark — are classified non-alphanumeric. -/
def isAlnum (c : Nat) : Bool :=
  (48 ≤ c && c ≤ 57) || (65 ≤ c && c ≤ 90) || (97 ≤ c && c ≤ 122) || c = 304

/-- The ASCII lowercase mapping, one character to one character. -/
def asciiLower (c : Nat) : Nat := if 65 ≤ c && c ≤ 90 then c + 32 else c

/-- Per-character part of Rust `char::to_lowercase`, which may emit more
than one character: U+0130 maps to `"i\u{307}"` (the example documented for
`str::to_lowercase`); ASCII uppercase maps to its lowercase; everything
else is left unchanged. -/
def lowerChar (c : Nat) : List Nat :=
  if c = 304 then [105, 775] else [asciiLower c]

/-- Model of Rust `str::to_lowercase`: concatenation of the per-character
lowercase images. -/
def toLower (s : Str) : Str := s.flatMap lowerChar

/-- Model of Rust `str::trim_matches`: strips the leading and trailing
characters satisfying `p`, keeping the interior intact. -/
def trimMatches (p : Nat → Bool) (s : Str) : Str :=
  ((s.dropWhile p).reverse.dropWhile p).reverse

/-- The cleaned token of `SearchEngine::new` (`src/lib.rs:27-29` and the
identical loop in `src/main.rs`):
`word.trim_matches(|c: char| !c.is_alphanumeric()).to_lowercase()`. -/
def cleanToken (w : Str) : Str := toLower (trimMatches (fun c => !isAlnum c) w)

/-- The token normalizer: the cleaned token, discarded when empty by the
`!clean.is_empty()` guard (`src/lib.rs:30-32`). -/
def normalize (w : Str) : Option Str :=
  if cleanToken w = [] then none else some (cleanToken w)

/-- ASCII whitespace, modelling Rust `char::is_whitespace`. -/
def isWs (c : Nat) : Bool :=
  c = 32 || c = 9 || c = 10 || c = 13 || c = 11 || c = 12

/-- Accumulator pass behind `splitWs`. -/
def splitWsAux : Str → Str → List Str
  | [], acc => if acc = [] then [] else [acc.reverse]
  | c :: rest, acc =>
    if isWs c then
      if acc = [] then splitWsAux rest []
      else acc.reverse :: splitWsAux rest []
    else splitWsAux rest (c :: acc)

/-- Model of Rust `str::split_whitespace`: the maximal non-whitespace runs,
in order, with no empty tokens. -/
def splitWs (s : Str) : List Str := splitWsAux s []

/-- The inverted index `HashMap<String, Vec<String>>`, modelled as an
association list keyed by normalized word; the list stored under a key
preserves `Vec` push order, which is all the source ever relies on. -/
abbrev Index := List (Str × List Str)

/-- Model of `HashMap::get`. -/
def indexLookup : Index → Str → Option (List Str)
  | [], _ => none
  | (k, v) :: rest, w => if k = w then some v else indexLookup rest w

/-- The list stored under a key, defaulting to the empty list. -/
def indexLookupD (idx : Index) (w : Str) : List Str :=
  (indexLookup idx w).getD []

/-- Model of `index.entry(clean).or_default().push(file_name.clone())`. -/
def insertAppend : Index → Str → Str → Index
  | [], w, name => [(w, [name])]
  | (k, v) :: rest, w, name =>
    if k = w then (k, v ++ [name]) :: rest
    else (k, v) :: insertAppend rest w name

/-- One iteration of the inner `for word in contents.split_whitespace()`
loop of `SearchEngine::new`: normalize the token and, if anything is left,
push the file name onto its entry. -/
def indexToken (name : Str) (acc : Index) (tok : Str) : Index :=
  match normalize tok with
  | some clean => insertAppend acc clean name
  | none => acc

/-- Indexing the tokens of one file's contents: the inner
`for word in contents.split_whitespace()` loop of `SearchEngine::new`. -/
def indexFile (idx : Index) (name : Str) (contents : Str) : Index :=
  (splitWs contents).foldl (indexToken name) idx

/-- A filesystem path as its list of components.  `files.sort()` on a
`Vec<PathBuf>` orders paths by Rust `Path`/`PathBuf` comparison, which is
lexicographic on the component sequences, each component compared
bytewise — exactly the derived lexicographic order on `List Str`. -/
abbrev FsPath := List Str

/-- Model of `file_path.display().to_string()`: the components joined by
the platform separator `/`. -/
def display (p : FsPath) : Str := List.intercalate [47] p

/-- Model of `files.sort()`: sort the discovered paths by Rust path
ordering (component-wise lexicographic). -/
def sortFiles (d : List FsPath) : List FsPath := List.insertionSort (· ≤ ·) d

/-- Index construction, `SearchEngine::new` (`src/lib.rs:10-39`) and the
identical indexing loop of `main` (`src/main.rs:36-67`): `discovered` is
the file list yielded by the directory walk, in whatever order the
filesystem iterates; `fs` returns a file's contents, or `none` when
`read_to_string` fails, in which case the file is skipped. -/
def build (discovered : List FsPath) (fs : FsPath → Option Str) : Index :=
  (sortFiles discovered).foldl
    (fun idx p =>
      match fs p with
      | some contents => indexFile idx (display p) contents
      | none => idx) []

/-- Modelled from the spec: the processing order the spec asks for, namely
sorting the discovered files by the lexicographic order of the platform
path string (the display string), rather than by path components. -/
def sortFilesByDisplay (d : List FsPath) : List FsPath :=
  List.insertionSort (fun p q => display p ≤ display q) d

/-- Modelled from the spec: index construction that processes files in
display-string order, for comparison against the implemented `build`. -/
def buildByDisplay (discovered : List FsPath) (fs : FsPath → Option Str) : Index :=
  (sortFilesByDisplay discovered).foldl
    (fun idx p =>
      match fs p with
      | some contents => indexFile idx (display p) contents
      | none => idx) []

/-- Model of `SearchEngine::search` (`src/lib.rs:41-51`), which the HTTP
handler calls directly and the TUI loop duplicates inline: lowercase the
query, look it up, and format one line per stored `DocumentRef`, or the
single not-found sentinel. -/
def search (idx : Index) (query : Str) : List Str :=
  match indexLookup idx (toLower query) with
  | some files =>
    files.map (fun f => codes "'" ++ toLower query ++ codes "' found in " ++ f)
  | none => [codes "'" ++ toLower query ++ codes "' not found in any file"]

/-- The three TUI modes. -/
inductive Mode
  | Safe
  | Insert
  | Command
  deriving DecidableEq

/-- The key events the loop's `match` distinguishes; `Other` stands for
every `KeyCode` variant that only reaches the trailing `_ => {}` arm. -/
inductive Key
  | Char (c : Nat)
  | Backspace
  | Enter
  | Up
  | Down
  | Other
  deriving DecidableEq

/-- The interactive session state: query buffer, result lines, mode and
scroll offset (a `u16` in the source; the transitions keep it below
65536, and Nat subtraction models `saturating_sub`). -/
structure Sess where
  query : Str
  results : List Str
  mode : Mode
  scroll : Nat
  deriving DecidableEq

/-- The scroll-down arm:
`if scroll < results.len().saturating_sub(1) as u16 { scroll += 1 }`.
The `as u16` cast truncates the bound modulo 65536. -/
def scrollDown (s : Sess) : Sess :=
  { s with
    scroll :=
      if s.scroll < (s.results.length - 1) % 65536 then s.scroll + 1
      else s.scroll }

/-- The scroll-up arm: `scroll = scroll.saturating_sub(1)`. -/
def scrollUp (s : Sess) : Sess := { s with scroll := s.scroll - 1 }

/-- One step of the TUI event loop's `match (mode, key.code)`
(`src/main.rs:136-175`); `none` models `break` (the quit arms).
Character codes: `:` 58, `q` 113, `i` 105, `s` 115, `c` 99, `j` 106,
`k` 107. -/
def step (idx : Index) (s : Sess) (k : Key) : Option Sess :=
  match s.mode with
  | Mode.Insert =>
    match k with
    | Key.Char c =>
      if c = 58 then some { s with mode := Mode.Command, query := [] }
      else some { s with query := s.query ++ [c] }
    | Key.Backspace => some { s with query := s.query.dropLast }
    | Key.Enter =>
      if s.query = [] then some s
      else some { s with results := search idx s.query, scroll := 0 }
    | _ => some s
  | Mode.Command =>
    match k with
    | Key.Char c =>
      if c = 113 then none
      else if c = 105 then some { s with mode := Mode.Insert, query := [] }
      else if c = 115 then some { s with mode := Mode.Safe }
      else if c = 106 then some (scrollDown s)
      else if c = 107 then some (scrollUp s)
      else some s
    | Key.Down => some (scrollDown s)
    | Key.Up => some (scrollUp s)
    | _ => some s
  | Mode.Safe =>
    match k with
    | Key.Char c =>
      if c = 105 then some { s with mode := Mode.Insert, query := [] }
      else if c = 99 then some { s with mode := Mode.Command }
      else if c = 113 then none
      else if c = 106 then some (scrollDown s)
      else if c = 107 then some (scrollUp s)
      else some s
    | Key.Down => some (scrollDown s)
    | Key.Up => some (scrollUp s)
    | _ => some s

/-- The loop's initial state: empty query, no results, Insert mode,
scroll 0 (`src/main.rs:75-78`). -/
def initState : Sess := ⟨[], [], Mode.Insert, 0⟩

/-- Run a sequence of input events, stopping when a quit arm fires. -/
def run (idx : Index) (s : Sess) : List Key → Option Sess
  | [] => some s
  | k :: ks =>
    match step idx s k with
    | some s2 => run idx s2 ks
    | none => none

/-- States reachable from the initial state by some event sequence. -/
def Reachable (idx : Index) (s : Sess) : Prop :=
  ∃ evs, run idx initState evs = some s

/-- Number of tokens in a token list whose normalized form is `w`. -/
def occTokens (w : Str) : List Str → Nat
  | [] => 0
  | t :: ts => (if normalize t = some w then 1 else 0) + occTokens w ts

/-- Number of occurrences of the normalized word `w` in a file's contents:
tokens of the whitespace split whose normalized form is `w`. -/
def occCount (contents w : Str) : Nat := occTokens w (splitWs contents)


lemma isAlnum_iff (c : Nat) :
    isAlnum c = true ↔
      (48 ≤ c ∧ c ≤ 57) ∨ (65 ≤ c ∧ c ≤ 90) ∨ (97 ≤ c ∧ c ≤ 122) ∨ c = 304 := by
  simp only [isAlnum, Bool.or_eq_true, Bool.and_eq_true, decide_eq_true_eq]
  tauto

lemma asciiLower_eq (c : Nat) :
    asciiLower c = if 65 ≤ c ∧ c ≤ 90 then c + 32 else c := by
  simp [asciiLower]

lemma asciiLower_isAlnum (c : Nat) : isAlnum (asciiLower c) = isAlnum c := by
  rw [Bool.eq_iff_iff, isAlnum_iff, isAlnum_iff, asciiLower_eq]
  split <;> omega

lemma asciiLower_idem (c : Nat) : asciiLower (asciiLower c) = asciiLower c := by
  simp only [asciiLower_eq]
  by_cases hP : 65 ≤ c ∧ c ≤ 90
  · rw [if_pos hP, if_neg (by omega)]
  · rw [if_neg hP, if_neg hP]

lemma lowerChar_ne_nil (c : Nat) : lowerChar c ≠ [] := by
  unfold lowerChar
  split <;> simp

lemma lowerChar_fix (c : Nat) : ∀ d ∈ lowerChar c, lowerChar d = [d] := by
  intro d hd
  unfold lowerChar at hd
  split at hd
  · simp only [List.mem_cons, List.mem_singleton] at hd
    rcases hd with hd | hd | hd
    · subst hd; decide
    · subst hd; decide
    · simp at hd
  · rename_i hc304
    simp only [List.mem_singleton] at hd
    subst hd
    by_cases hP : 65 ≤ c ∧ c ≤ 90
    · have he : asciiLower c = c + 32 := by rw [asciiLower_eq, if_pos hP]
      rw [he]
      unfold lowerChar
      rw [if_neg (by omega), asciiLower_eq, if_neg (by omega)]
    · have he : asciiLower c = c := by rw [asciiLower_eq, if_neg hP]
      rw [he]
      unfold lowerChar
      rw [if_neg hc304, asciiLower_eq, if_neg hP]

lemma toLower_of_fixed (l : Str) (h : ∀ d ∈ l, lowerChar d = [d]) :
    toLower l = l := by
  induction l with
  | nil => rfl
  | cons c cs ih =>
    unfold toLower
    rw [List.flatMap_cons, h c (by simp)]
    have := ih fun d hd => h d (by simp [hd])
    unfold toLower at this
    rw [this]
    rfl

lemma toLower_idem (s : Str) : toLower (toLower s) = toLower s := by
  apply toLower_of_fixed
  intro d hd
  unfold toLower at hd
  simp only [List.mem_flatMap] at hd
  obtain ⟨c, _, hdc⟩ := hd
  exact lowerChar_fix c d hdc

lemma toLower_eq_nil_iff (s : Str) : toLower s = [] ↔ s = [] := by
  constructor
  · intro h
    cases s with
    | nil => rfl
    | cons c cs =>
      unfold toLower at h
      rw [List.flatMap_cons] at h
      rcases List.append_eq_nil.mp h with ⟨h1, _⟩
      exact absurd h1 (lowerChar_ne_nil c)
  · intro h
    rw [h]
    rfl

lemma toLower_eq_map_ascii (l : Str) (h : ∀ c ∈ l, c < 128) :
    toLower l = l.map asciiLower := by
  induction l with
  | nil => rfl
  | cons c cs ih =>
    unfold toLower
    rw [List.flatMap_cons, List.map_cons]
    have hc : lowerChar c = [asciiLower c] := by
      unfold lowerChar
      rw [if_neg (by have := h c (by simp); omega)]
    rw [hc]
    have := ih fun d hd => h d (by simp [hd])
    unfold toLower at this
    rw [this]
    rfl

lemma dropWhile_head?_false (p : Nat → Bool) (l : Str) :
    ∀ a, (l.dropWhile p).head? = some a → p a = false := by
  induction l with
  | nil => intro a h; simp at h
  | cons c rest ih =>
    intro a h
    rw [List.dropWhile_cons] at h
    by_cases hc : p c = true
    · rw [if_pos hc] at h
      exact ih a h
    · rw [if_neg hc] at h
      simp only [List.head?_cons, Option.some.injEq] at h
      subst h
      rwa [Bool.not_eq_true] at hc

lemma trimMatches_append_eq (p : Nat → Bool) (s : Str) :
    s.dropWhile p = trimMatches p s ++ ((s.dropWhile p).reverse.takeWhile p).reverse := by
  unfold trimMatches
  conv_lhs => rw [← List.reverse_reverse (s.dropWhile p),
    ← List.takeWhile_append_dropWhile p (s.dropWhile p).reverse]
  rw [List.reverse_append]

lemma trimMatches_decomp (p : Nat → Bool) (s : Str) :
    ∃ pre suf : Str,
      s = pre ++ trimMatches p s ++ suf ∧
      (∀ c ∈ pre, p c = true) ∧ (∀ c ∈ suf, p c = true) := by
  refine ⟨s.takeWhile p, ((s.dropWhile p).reverse.takeWhile p).reverse, ?_, ?_, ?_⟩
  · conv_lhs => rw [← List.takeWhile_append_dropWhile p s, trimMatches_append_eq p s]
    rw [List.append_assoc]
  · exact fun c hc => List.mem_takeWhile_imp hc
  · intro c hc
    rw [List.mem_reverse] at hc
    exact List.mem_takeWhile_imp hc

lemma trimMatches_head?_false (p : Nat → Bool) (s : Str) (a : Nat)
    (h : (trimMatches p s).head? = some a) : p a = false := by
  have hd : (s.dropWhile p).head? = some a := by
    rw [trimMatches_append_eq p s, List.head?_append, h]
    rfl
  exact dropWhile_head?_false p s a hd

lemma trimMatches_getLast?_false (p : Nat → Bool) (s : Str) (z : Nat)
    (h : (trimMatches p s).getLast? = some z) : p z = false := by
  unfold trimMatches at h
  rw [List.getLast?_reverse] at h
  exact dropWhile_head?_false p _ z h

lemma trimMatches_eq_self (p : Nat → Bool) (l : Str)
    (h1 : ∀ a, l.head? = some a → p a = false)
    (h2 : ∀ z, l.getLast? = some z → p z = false) :
    trimMatches p l = l := by
  unfold trimMatches
  have hdrop : l.dropWhile p = l := by
    cases l with
    | nil => rfl
    | cons c rest =>
      have hc : p c = false := h1 c rfl
      rw [List.dropWhile_cons, if_neg (by simp [hc])]
  rw [hdrop]
  have hdrop2 : l.reverse.dropWhile p = l.reverse := by
    cases hr : l.reverse with
    | nil => rfl
    | cons c rest =>
      have hz : l.getLast? = some c := by
        rw [← List.head?_reverse, hr]
        rfl
      have hc : p c = false := h2 c hz
      rw [List.dropWhile_cons, if_neg (by simp [hc])]
  rw [hdrop2, List.reverse_reverse]

lemma trimMatches_eq_nil_iff (p : Nat → Bool) (s : Str) :
    trimMatches p s = [] ↔ ∀ c ∈ s, p c = true := by
  constructor
  · intro h c hc
    obtain ⟨pre, suf, hs, hpre, hsuf⟩ := trimMatches_decomp p s
    rw [hs, h] at hc
    simp only [List.append_nil, List.mem_append] at hc
    rcases hc with hc | hc
    · exact hpre c hc
    · exact hsuf c hc
  · intro h
    unfold trimMatches
    have hnil : s.dropWhile p = [] := List.dropWhile_eq_nil_iff.mpr h
    rw [hnil]
    rfl

lemma cleanToken_eq_nil_iff (s : Str) :
    cleanToken s = [] ↔ ∀ c ∈ s, isAlnum c = false := by
  unfold cleanToken
  rw [toLower_eq_nil_iff, trimMatches_eq_nil_iff]
  constructor
  · intro h c hc
    have := h c hc
    rwa [Bool.not_eq_true'] at this
  · intro h c hc
    rw [Bool.not_eq_true', h c hc]

lemma normalize_eq_none_iff (s : Str) :
    normalize s = none ↔ ∀ c ∈ s, isAlnum c = false := by
  unfold normalize
  split
  · rename_i hnil
    rw [cleanToken_eq_nil_iff] at hnil
    simpa using hnil
  · rename_i hnil
    rw [cleanToken_eq_nil_iff] at hnil
    simp [hnil]

lemma normalize_eq_some_iff (s w : Str) :
    normalize s = some w ↔ cleanToken s ≠ [] ∧ w = cleanToken s := by
  unfold normalize
  split
  · rename_i hnil
    simp [hnil]
  · rename_i hnil
    simp only [Option.some.injEq]
    constructor
    · intro h
      exact ⟨hnil, h.symm⟩
    · intro h
      exact h.2.symm

lemma cleanToken_def (s : Str) :
    cleanToken s = toLower (trimMatches (fun c => !isAlnum c) s) := rfl

/-- C8: `normalize` strips exactly the leading and trailing non-alphanumeric
characters (interior characters are untouched), lowercases the remainder and
returns nothing exactly when no alphanumeric character remains; in particular
`normalize ""` and `normalize "!!!"` yield nothing, `normalize "Hello,"`
yields `"hello"`. -/
theorem normalize_characterization :
    normalize (codes "") = none ∧
    normalize (codes "!!!") = none ∧
    normalize (codes "Hello,") = some (codes "hello") ∧
    (∀ s : Str, normalize s = none ↔ ∀ c ∈ s, isAlnum c = false) ∧
    (∀ s w : Str, normalize s = some w →
      ∃ pre core suf : Str,
        s = pre ++ core ++ suf ∧
        (∀ c ∈ pre, isAlnum c = false) ∧
        (∀ c ∈ suf, isAlnum c = false) ∧
        core ≠ [] ∧
        (∀ a, core.head? = some a → isAlnum a = true) ∧
        (∀ z, core.getLast? = some z → isAlnum z = true) ∧
        w = toLower core) := by
  refine ⟨by decide, by decide, by decide, fun s => normalize_eq_none_iff s, ?_⟩
  intro s w h
  rw [normalize_eq_some_iff] at h
  obtain ⟨hne, hw⟩ := h
  obtain ⟨pre, suf, hs, hpre, hsuf⟩ := trimMatches_decomp (fun c => !isAlnum c) s
  refine ⟨pre, trimMatches (fun c => !isAlnum c) s, suf, hs, ?_, ?_, ?_, ?_, ?_, ?_⟩
  · intro c hc
    have := hpre c hc
    rwa [Bool.not_eq_true'] at this
  · intro c hc
    have := hsuf c hc
    rwa [Bool.not_eq_true'] at this
  · intro hnil
    rw [cleanToken_def, hnil] at hw
    exact hne (by rw [cleanToken_def, hnil]; rfl)
  · intro a ha
    have := trimMatches_head?_false (fun c => !isAlnum c) s a ha
    simpa using this
  · intro z hz
    have := trimMatches_getLast?_false (fun c => !isAlnum c) s z hz
    simpa using this
  · rw [hw, cleanToken_def]

/-- Witness for C8: the structural clause instantiated at `"Hello,"`. -/
theorem normalize_characterization_witness :
    ∃ pre core suf : Str,
      codes "Hello," = pre ++ core ++ suf ∧
      (∀ c ∈ pre, isAlnum c = false) ∧
      (∀ c ∈ suf, isAlnum c = false) ∧
      core ≠ [] ∧
      (∀ a, core.head? = some a → isAlnum a = true) ∧
      (∀ z, core.getLast? = some z → isAlnum z = true) ∧
      codes "hello" = toLower core :=
  normalize_characterization.2.2.2.2 (codes "Hello,") (codes "hello") (by decide)

/-- Counterexample for C9 as stated: `str::to_lowercase` maps U+0130 (İ,
code 304) to `"i\u{307}"` (codes 105, 775), so `normalize` accepts İ and
yields the two-character word; renormalizing that word strips the trailing
non-alphanumeric combining mark U+0307 and yields `"i"` — normalization is
not idempotent on every string the program accepts. -/
theorem normalize_idempotent_counterexample :
    normalize [304] = some [105, 775] ∧
    normalize [105, 775] = some [105] ∧
    some ([105] : Str) ≠ some ([105, 775] : Str) := by
  decide

/-- C9 amended: normalization is idempotent on ASCII strings: whenever
`normalize` yields a word `w` from a string of characters below 128,
applying it to `w` yields `w` unchanged.  (On full Unicode it is not:
see the U+0130 counterexample.) -/
theorem normalize_idempotent_ascii (s w : Str) (hascii : ∀ c ∈ s, c < 128)
    (h : normalize s = some w) : normalize w = some w := by
  rw [normalize_eq_some_iff] at h
  obtain ⟨hne, hw⟩ := h
  rw [cleanToken_def] at hne hw
  obtain ⟨pre, suf, hs, hpre, hsuf⟩ := trimMatches_decomp (fun c => !isAlnum c) s
  have hcore_ascii : ∀ c ∈ trimMatches (fun c => !isAlnum c) s, c < 128 := by
    intro c hc
    apply hascii
    rw [hs]
    simp [hc]
  have hmap : toLower (trimMatches (fun c => !isAlnum c) s)
      = (trimMatches (fun c => !isAlnum c) s).map asciiLower :=
    toLower_eq_map_ascii _ hcore_ascii
  rw [hmap] at hne hw
  have hw_ascii : ∀ c ∈ w, c < 128 := by
    intro c hc
    rw [hw] at hc
    simp only [List.mem_map] at hc
    obtain ⟨b, hb, hbe⟩ := hc
    have := hcore_ascii b hb
    rw [← hbe, asciiLower_eq]
    split <;> omega
  have htrim : trimMatches (fun c => !isAlnum c) w = w := by
    apply trimMatches_eq_self
    · intro a ha
      rw [hw, List.head?_map] at ha
      cases hh : (trimMatches (fun c => !isAlnum c) s).head? with
      | none => rw [hh] at ha; simp at ha
      | some b =>
        rw [hh] at ha
        simp only [Option.map_some', Option.some.injEq] at ha
        subst ha
        have hb := trimMatches_head?_false (fun c => !isAlnum c) s b hh
        simp only [Bool.not_eq_false'] at hb
        simp [asciiLower_isAlnum, hb]
    · intro z hz
      rw [hw, List.getLast?_map] at hz
      cases hh : (trimMatches (fun c => !isAlnum c) s).getLast? with
      | none => rw [hh] at hz; simp at hz
      | some b =>
        rw [hh] at hz
        simp only [Option.map_some', Option.some.injEq] at hz
        subst hz
        have hb := trimMatches_getLast?_false (fun c => !isAlnum c) s b hh
        simp only [Bool.not_eq_false'] at hb
        simp [asciiLower_isAlnum, hb]
  have hclean : cleanToken w = w := by
    rw [cleanToken_def, htrim, toLower_eq_map_ascii w hw_ascii, hw, List.map_map]
    have hcomp : (trimMatches (fun c => !isAlnum c) s).map (asciiLower ∘ asciiLower)
        = (trimMatches (fun c => !isAlnum c) s).map asciiLower :=
      List.map_congr_left fun a _ => by simp [Function.comp, asciiLower_idem]
    rw [hcomp, ← hw]
  rw [normalize_eq_some_iff, hclean]
  refine ⟨?_, rfl⟩
  intro hnil
  rw [hnil] at hw
  exact hne hw.symm

/-- Witness for C9 amended at the concrete ASCII token `"Hello,"`. -/
theorem normalize_idempotent_ascii_witness :
    (∀ c ∈ codes "Hello,", c < 128) ∧
    normalize (codes "Hello,") = some (codes "hello") ∧
    normalize (codes "hello") = some (codes "hello") :=
  ⟨by decide, by decide,
    normalize_idempotent_ascii (codes "Hello,") (codes "hello") (by decide) (by decide)⟩


lemma indexLookupD_insertAppend_self (idx : Index) (w name : Str) :
    indexLookupD (insertAppend idx w name) w = indexLookupD idx w ++ [name] := by
  induction idx with
  | nil => simp [insertAppend, indexLookupD, indexLookup]
  | cons kv rest ih =>
    obtain ⟨k, v⟩ := kv
    by_cases hk : k = w
    · subst hk
      simp [insertAppend, indexLookupD, indexLookup]
    · simp only [insertAppend, if_neg hk, indexLookupD, indexLookup]
      exact ih

lemma indexLookup_insertAppend_ne (idx : Index) (w u name : Str) (h : u ≠ w) :
    indexLookup (insertAppend idx u name) w = indexLookup idx w := by
  induction idx with
  | nil => simp [insertAppend, indexLookup, h]
  | cons kv rest ih =>
    obtain ⟨k, v⟩ := kv
    by_cases hk : k = u
    · subst hk
      simp [insertAppend, indexLookup, h]
    · simp only [insertAppend, if_neg hk, indexLookup]
      by_cases hw : k = w
      · rw [if_pos hw, if_pos hw]
      · rw [if_neg hw, if_neg hw]
        exact ih

lemma indexLookupD_insertAppend_ne (idx : Index) (w u name : Str) (h : u ≠ w) :
    indexLookupD (insertAppend idx u name) w = indexLookupD idx w := by
  unfold indexLookupD
  rw [indexLookup_insertAppend_ne idx w u name h]

lemma foldl_indexToken_lookupD (name w : Str) :
    ∀ (toks : List Str) (idx : Index),
      indexLookupD (toks.foldl (indexToken name) idx) w
        = indexLookupD idx w ++ List.replicate (occTokens w toks) name := by
  intro toks
  induction toks with
  | nil => intro idx; simp [occTokens]
  | cons t ts ih =>
    intro idx
    rw [List.foldl_cons, ih]
    cases hn : normalize t with
    | none =>
      have hocc : occTokens w (t :: ts) = occTokens w ts := by
        simp [occTokens, hn]
      have hstep : indexToken name idx t = idx := by
        simp [indexToken, hn]
      rw [hstep, hocc]
    | some u =>
      by_cases hu : u = w
      · subst hu
        have hocc : occTokens u (t :: ts) = 1 + occTokens u ts := by
          simp [occTokens, hn]
        have hstep : indexToken name idx t = insertAppend idx u name := by
          simp [indexToken, hn]
        rw [hstep, hocc, indexLookupD_insertAppend_self, List.append_assoc]
        congr 1
        rw [List.singleton_append, Nat.add_comm, List.replicate_succ]
      · have hocc : occTokens w (t :: ts) = occTokens w ts := by
          simp [occTokens, hn, hu]
        have hstep : indexToken name idx t = insertAppend idx u name := by
          simp [indexToken, hn]
        rw [hstep, hocc, indexLookupD_insertAppend_ne idx w u name hu]

/-- C6: indexing one file appends, to each normalized word's entry, exactly
one copy of the file's display name per occurrence of the word among the
file's tokens — placed after everything contributed by previously processed
files, the occurrences being appended in token order by the fold. -/
theorem indexFile_occurrence_entries (idx : Index) (name contents w : Str) :
    indexLookupD (indexFile idx name contents) w
      = indexLookupD idx w ++ List.replicate (occCount contents w) name := by
  unfold indexFile occCount
  exact foldl_indexToken_lookupD name w (splitWs contents) idx


/-- C4: `search` normalizes the query by lowercasing alone (searching the raw
query and its lowercased form give the same result, so no punctuation is
stripped), and when the lowercased query is a key it returns exactly one
formatted line `"'<word>' found in <path>"` per stored DocumentRef, in
exactly the stored order, with no deduplication. -/
theorem search_hit (idx : Index) (q : Str) (files : List Str)
    (hfiles : indexLookup idx (toLower q) = some files) :
    search idx q
        = files.map (fun f => codes "'" ++ toLower q ++ codes "' found in " ++ f) ∧
      (search idx q).length = files.length ∧
      search idx q = search idx (toLower q) := by
  have h2 : indexLookup idx (toLower (toLower q)) = some files := by
    rw [toLower_idem]
    exact hfiles
  unfold search
  rw [hfiles, h2]
  refine ⟨rfl, List.length_map files _, by rw [toLower_idem]⟩

/-- Witness for C4: a one-word index hit by the mixed-case query `"Hello"`. -/
theorem search_hit_witness :
    indexLookup [(codes "hello", [codes "a.txt"])] (toLower (codes "Hello"))
        = some [codes "a.txt"] ∧
      search [(codes "hello", [codes "a.txt"])] (codes "Hello")
        = [codes "'hello' found in a.txt"] := by
  refine ⟨by decide, ?_⟩
  rw [(search_hit [(codes "hello", [codes "a.txt"])] (codes "Hello")
    [codes "a.txt"] (by decide)).1]
  decide

/-- C5: when the lowercased query is not a key of the index, `search`
returns exactly the one-element list holding the not-found sentinel —
never an error, never an empty list. -/
theorem search_miss (idx : Index) (q : Str)
    (hmiss : indexLookup idx (toLower q) = none) :
    search idx q = [codes "'" ++ toLower q ++ codes "' not found in any file"] ∧
    (search idx q).length = 1 := by
  unfold search
  rw [hmiss]
  exact ⟨rfl, rfl⟩

/-- Witness for C5: the spec's own miss example on the empty index. -/
theorem search_miss_witness :
    indexLookup [] (toLower (codes "zzzznotaword")) = none ∧
    search [] (codes "zzzznotaword")
      = [codes "'zzzznotaword' not found in any file"] := by
  refine ⟨by decide, ?_⟩
  rw [(search_miss [] (codes "zzzznotaword") (by decide)).1]
  decide


lemma normalize_ne_some_nil (t : Str) : normalize t ≠ some [] := by
  intro h
  rw [normalize_eq_some_iff] at h
  exact h.1 h.2.symm

lemma foldl_indexToken_lookup_nil (name : Str) :
    ∀ (toks : List Str) (idx : Index), indexLookup idx [] = none →
      indexLookup (toks.foldl (indexToken name) idx) [] = none := by
  intro toks
  induction toks with
  | nil => intro idx h; exact h
  | cons t ts ih =>
    intro idx h
    rw [List.foldl_cons]
    apply ih
    cases hn : normalize t with
    | none =>
      have hstep : indexToken name idx t = idx := by simp [indexToken, hn]
      rw [hstep]
      exact h
    | some u =>
      have hu : u ≠ [] := by
        intro hnil
        rw [hnil] at hn
        exact normalize_ne_some_nil t hn
      have hstep : indexToken name idx t = insertAppend idx u name := by
        simp [indexToken, hn]
      rw [hstep, indexLookup_insertAppend_ne idx [] u name hu]
      exact h

lemma indexFile_lookup_nil (idx : Index) (name contents : Str)
    (h : indexLookup idx [] = none) :
    indexLookup (indexFile idx name contents) [] = none :=
  foldl_indexToken_lookup_nil name (splitWs contents) idx h

lemma build_lookup_nil (d : List FsPath) (fs : FsPath → Option Str) :
    indexLookup (build d fs) [] = none := by
  unfold build
  have key : ∀ (l : List FsPath) (idx : Index), indexLookup idx [] = none →
      indexLookup (l.foldl
        (fun idx p =>
          match fs p with
          | some contents => indexFile idx (display p) contents
          | none => idx) idx) [] = none := by
    intro l
    induction l with
    | nil => intro idx h; exact h
    | cons p ps ih =>
      intro idx h
      rw [List.foldl_cons]
      apply ih
      cases hc : fs p with
      | none => simpa [hc] using h
      | some contents =>
        simp only [hc]
        exact indexFile_lookup_nil idx (display p) contents h
  exact key (sortFiles d) [] rfl

/-- C10: the empty string is never a key of a built index (empty normalized
words are discarded), so searching the empty query — the case an empty HTTP
`q` parameter reaches through `search_handler` — returns exactly the single
sentinel `"'' not found in any file"`. -/
theorem empty_query_miss (d : List FsPath) (fs : FsPath → Option Str) :
    indexLookup (build d fs) (codes "") = none ∧
    search (build d fs) (codes "") = [codes "'' not found in any file"] := by
  have h0 : indexLookup (build d fs) [] = none := build_lookup_nil d fs
  constructor
  · exact h0
  · unfold search
    have hq : toLower (codes "") = [] := rfl
    rw [hq, h0]
    decide

lemma sortFiles_perm_eq (d1 d2 : List FsPath) (h : d1.Perm d2) :
    sortFiles d1 = sortFiles d2 := by
  apply List.eq_of_perm_of_sorted (r := (· ≤ ·))
  · exact (List.perm_insertionSort _ d1).trans (h.trans (List.perm_insertionSort _ d2).symm)
  · exact List.sorted_insertionSort _ d1
  · exact List.sorted_insertionSort _ d2

/-- C1 amended: the indexer processes the discovered files in sorted order —
sorted by Rust path comparison, lexicographic on path components — and is
therefore deterministic: any two walk orders of the same file tree produce
identical indexes, hence identical per-word DocumentRef sequences. -/
theorem build_deterministic :
    (∀ d : List FsPath, List.Sorted (· ≤ ·) (sortFiles d)) ∧
    (∀ (d1 d2 : List FsPath) (fs : FsPath → Option Str),
      d1.Perm d2 → build d1 fs = build d2 fs) := by
  constructor
  · intro d
    exact List.sorted_insertionSort _ d
  · intro d1 d2 fs h
    unfold build
    rw [sortFiles_perm_eq d1 d2 h]

/-- Witness for C1: two opposite walk orders of the spec's two-file example
tree build the same index. -/
theorem build_deterministic_witness :
    ([[codes "b.txt"], [codes "a.txt"]] : List FsPath).Perm
        [[codes "a.txt"], [codes "b.txt"]] ∧
      build [[codes "b.txt"], [codes "a.txt"]]
          (fun p =>
            if p = [codes "a.txt"] then some (codes "Hello World")
            else if p = [codes "b.txt"] then some (codes "hello there")
            else none)
        = build [[codes "a.txt"], [codes "b.txt"]]
          (fun p =>
            if p = [codes "a.txt"] then some (codes "Hello World")
            else if p = [codes "b.txt"] then some (codes "hello there")
            else none) :=
  ⟨by decide, build_deterministic.2 _ _ _ (by decide)⟩

/-- Counterexample for C1: a tree holding the files `a-b` and `a/b`.
`files.sort()` compares `PathBuf`s component-wise, so `a/b` (components
`["a","b"]`) sorts before `a-b` — yet the platform path string `"a-b"` is
lexicographically smaller than `"a/b"` (`'-'` is 45, `'/'` is 47).  The
built index therefore lists `a/b` before `a-b` under `"w"`, while
processing files in display-string order would list `a-b` first: the claim
that files are processed in the lexicographic order of the platform path
string fails on this input. -/
theorem build_order_counterexample :
    display [codes "a-b"] < display [codes "a", codes "b"] ∧
    sortFiles [[codes "a-b"], [codes "a", codes "b"]]
      = [[codes "a", codes "b"], [codes "a-b"]] ∧
    indexLookup
        (build [[codes "a-b"], [codes "a", codes "b"]]
          (fun p =>
            if p = [codes "a-b"] then some (codes "w")
            else if p = [codes "a", codes "b"] then some (codes "w")
            else none))
        (codes "w")
      = some [codes "a/b", codes "a-b"] ∧
    indexLookup
        (buildByDisplay [[codes "a-b"], [codes "a", codes "b"]]
          (fun p =>
            if p = [codes "a-b"] then some (codes "w")
            else if p = [codes "a", codes "b"] then some (codes "w")
            else none))
        (codes "w")
      = some [codes "a-b", codes "a/b"] := by
  refine ⟨by decide, by decide, by decide, by decide⟩


lemma run_preserves (idx : Index) (P : Sess → Prop)
    (hstep : ∀ k s s2, P s → step idx s k = some s2 → P s2) :
    ∀ (evs : List Key) (s s2 : Sess), P s → run idx s evs = some s2 → P s2 := by
  intro evs
  induction evs with
  | nil =>
    intro s s2 h hrun
    simp only [run, Option.some.injEq] at hrun
    rw [← hrun]
    exact h
  | cons k ks ih =>
    intro s s2 h hrun
    rw [run] at hrun
    cases hs : step idx s k with
    | none => rw [hs] at hrun; exact Option.noConfusion hrun
    | some s1 =>
      rw [hs] at hrun
      exact ih s1 s2 (hstep k s s1 h hs) hrun

lemma step_scroll_inv (idx : Index) (k : Key) (s s2 : Sess)
    (h : s.scroll ≤ s.results.length - 1) (hstep : step idx s k = some s2) :
    s2.scroll ≤ s2.results.length - 1 := by
  rcases s with ⟨q, res, m, sc⟩
  dsimp only at h
  have hmod := Nat.mod_le (res.length - 1) 65536
  cases m <;> cases k <;> simp only [step] at hstep <;>
    (repeat' split at hstep) <;>
    first
      | exact Option.noConfusion hstep
      | (injection hstep with h2; subst h2;
         simp only [scrollDown, scrollUp];
         try dsimp only
         first
           | omega
           | (split <;> omega))


/-- C3: starting from the initial state, after any fully applied sequence of
input events the scroll offset satisfies `0 ≤ scroll ≤ max 0 (len(results)-1)`:
never negative and never past the last result line. -/
theorem scroll_always_in_bounds (idx : Index) (evs : List Key) (s2 : Sess)
    (h : run idx initState evs = some s2) :
    (0 : Int) ≤ (s2.scroll : Int) ∧
    (s2.scroll : Int) ≤ max 0 ((s2.results.length : Int) - 1) := by
  have hinv : s2.scroll ≤ s2.results.length - 1 :=
    run_preserves idx (fun s => s.scroll ≤ s.results.length - 1)
      (fun k s s2 => step_scroll_inv idx k s s2) evs initState s2
      (Nat.le_refl 0) h
  constructor
  · exact Int.ofNat_nonneg s2.scroll
  · rcases Nat.eq_zero_or_pos s2.results.length with hz | hp
    · rw [hz] at hinv
      simp only [Nat.zero_sub, Nat.le_zero] at hinv
      rw [hinv]
      simp
    · have : (s2.results.length : Int) - 1 ≤ max 0 ((s2.results.length : Int) - 1) :=
        le_max_right 0 _
      omega

/-- Witness for C3: a concrete session (type a query, submit it, enter
Command mode, scroll down) ends within bounds. -/
theorem scroll_always_in_bounds_witness :
    run [(codes "hi", [codes "f"])] initState
        [Key.Char 104, Key.Char 105, Key.Enter, Key.Char 58, Key.Down]
      = some ⟨[], [codes "'hi' found in f"], Mode.Command, 0⟩ ∧
    (0 : Int) ≤ ((⟨[], [codes "'hi' found in f"], Mode.Command, 0⟩ : Sess).scroll : Int) ∧
    (((⟨[], [codes "'hi' found in f"], Mode.Command, 0⟩ : Sess).scroll : Int)
      ≤ max 0 (((⟨[], [codes "'hi' found in f"], Mode.Command, 0⟩ : Sess).results.length : Int) - 1)) :=
  ⟨by decide,
   scroll_always_in_bounds [(codes "hi", [codes "f"])]
     [Key.Char 104, Key.Char 105, Key.Enter, Key.Char 58, Key.Down]
     ⟨[], [codes "'hi' found in f"], Mode.Command, 0⟩ (by decide)⟩


lemma step_query_inv (idx : Index) (k : Key) (s s2 : Sess)
    (h : (s.mode = Mode.Command ∨ s.mode = Mode.Safe) → s.query = [])
    (hstep : step idx s k = some s2) :
    (s2.mode = Mode.Command ∨ s2.mode = Mode.Safe) → s2.query = [] := by
  rcases s with ⟨q, res, m, sc⟩
  dsimp only at h
  cases m <;> cases k <;> simp only [step] at hstep <;>
    (repeat' split at hstep) <;>
    first
      | exact Option.noConfusion hstep
      | (injection hstep with h2; subst h2;
         first
           | (intro hm; exact rfl)
           | (intro hm; exact h (Or.inl rfl))
           | (intro hm; exact h (Or.inr rfl))
           | (intro hm; rcases hm with hm | hm <;> exact Mode.noConfusion hm))

lemma reachable_query_nil (idx : Index) (s : Sess) (h : Reachable idx s) :
    (s.mode = Mode.Command ∨ s.mode = Mode.Safe) → s.query = [] := by
  obtain ⟨evs, hrun⟩ := h
  exact run_preserves idx
    (fun s => (s.mode = Mode.Command ∨ s.mode = Mode.Safe) → s.query = [])
    (fun k s s2 => step_query_inv idx k s s2) evs initState s
    (fun hm => absurd hm (by decide)) hrun

/-- C2 amended: from any reachable state, a transition entering Insert or
Command mode from a different mode leaves the query buffer empty; every
transition other than an Insert-mode character or backspace event leaves the
buffer unchanged; and the `c` event in Safe mode enters Command mode with
the buffer (already empty in every reachable Safe state) still empty. -/
theorem query_buffer_clearing (idx : Index) (s : Sess) (k : Key) (s2 : Sess)
    (hreach : Reachable idx s) (hstep : step idx s k = some s2) :
    ((s2.mode ≠ s.mode ∧ (s2.mode = Mode.Insert ∨ s2.mode = Mode.Command)) →
      s2.query = []) ∧
    (¬(s.mode = Mode.Insert ∧ ((∃ c, k = Key.Char c) ∨ k = Key.Backspace)) →
      s2.query = s.query) ∧
    ((s.mode = Mode.Safe ∧ k = Key.Char 99) →
      s2.mode = Mode.Command ∧ s2.query = []) := by
  have hq := reachable_query_nil idx s hreach
  rcases s with ⟨q, res, m, sc⟩
  dsimp only at hq
  cases m <;> cases k <;> simp only [step] at hstep <;>
    (repeat' split at hstep) <;>
    first
      | exact Option.noConfusion hstep
      | (injection hstep with h2; subst h2;
         refine ⟨?_, ?_, ?_⟩ <;>
           first
             | (intro hx; exact rfl)
             | (intro hx; exact hq (Or.inl rfl))
             | (intro hx; exact hq (Or.inr rfl))
             | (intro hx; exact (hq (Or.inl rfl)).symm)
             | (intro hx; exact (hq (Or.inr rfl)).symm)
             | (intro hx; exact absurd rfl hx.1)
             | (intro hx; exact Mode.noConfusion hx.1)
             | (intro hx; exact Key.noConfusion hx.2)
             | (intro hx; exact ⟨rfl, hq (Or.inr rfl)⟩)
             | (intro hx; obtain ⟨hx1, hx2⟩ := hx; injection hx2 with hc; omega)
             | (intro hx; exfalso; apply hx; refine ⟨rfl, ?_⟩;
                first
                  | exact Or.inr rfl
                  | exact Or.inl ⟨_, rfl⟩))


/-- Counterexample for C2 as stated: (a) the unrecognized event `Other` at the
initial state stays in Insert mode — a transition that does not enter Insert
or Command from a different mode — yet leaves the buffer empty, refuting the
"only if" direction of the claimed equivalence; (b) a printable character in
Insert mode stays in the same mode yet changes the buffer, refuting "on all
other transitions the buffer's content persists unchanged". -/
theorem query_buffer_iff_counterexample :
    (step ([] : Index) initState Key.Other = some initState ∧
      initState.query = [] ∧
      ¬(initState.mode ≠ initState.mode ∧
        (initState.mode = Mode.Insert ∨ initState.mode = Mode.Command))) ∧
    (step ([] : Index) ⟨codes "x", [], Mode.Insert, 0⟩ (Key.Char 97)
        = some ⟨codes "x" ++ [97], [], Mode.Insert, 0⟩ ∧
      codes "x" ++ [97] ≠ codes "x") := by
  decide

/-- Witness for C2 amended: entering Command mode from Insert via `:` at the
(reachable) initial state leaves the buffer empty; the preserved-buffer and
Safe-to-Command clauses hold there vacuously. -/
theorem query_buffer_clearing_witness :
    Reachable ([] : Index) initState ∧
    step ([] : Index) initState (Key.Char 58) = some ⟨[], [], Mode.Command, 0⟩ ∧
    (((⟨[], [], Mode.Command, 0⟩ : Sess).mode ≠ initState.mode ∧
        ((⟨[], [], Mode.Command, 0⟩ : Sess).mode = Mode.Insert ∨
          (⟨[], [], Mode.Command, 0⟩ : Sess).mode = Mode.Command)) →
      (⟨[], [], Mode.Command, 0⟩ : Sess).query = []) :=
  ⟨⟨[], rfl⟩, by decide,
    (query_buffer_clearing [] initState (Key.Char 58) ⟨[], [], Mode.Command, 0⟩
      ⟨[], rfl⟩ (by decide)).1⟩

lemma step_command_down (idx : Index) (q : Str) (res : List Str) (sc : Nat) :
    step idx ⟨q, res, Mode.Command, sc⟩ Key.Down
      = some (scrollDown ⟨q, res, Mode.Command, sc⟩) := rfl

/-- C7 amended: in Command or Safe mode, a `k`/up event always sets scroll
to `max (scroll-1) 0` (Nat subtraction), with no proviso; a `j`/down event
sets scroll to `min (scroll+1) (max 0 (len(results)-1))` provided the
result list has at most 65535 lines (so that the `as u16` cast of
`results.len() - 1` does not truncate) and scroll is within bounds. -/
theorem scroll_step_formula (idx : Index) (s : Sess)
    (hmode : s.mode = Mode.Command ∨ s.mode = Mode.Safe) :
    (step idx s Key.Up = some { s with scroll := s.scroll - 1 } ∧
      step idx s (Key.Char 107) = some { s with scroll := s.scroll - 1 }) ∧
    (s.results.length ≤ 65535 → s.scroll ≤ s.results.length - 1 →
      step idx s Key.Down
          = some { s with scroll := min (s.scroll + 1) (s.results.length - 1) } ∧
        step idx s (Key.Char 106)
          = some { s with scroll := min (s.scroll + 1) (s.results.length - 1) }) := by
  rcases s with ⟨q, res, m, sc⟩
  dsimp only
  have hup : scrollUp ⟨q, res, m, sc⟩ = ⟨q, res, m, sc - 1⟩ := rfl
  rcases hmode with hm | hm <;> subst hm
  · refine ⟨⟨?_, ?_⟩, ?_⟩
    · show some (scrollUp ⟨q, res, Mode.Command, sc⟩) = _
      rw [hup]
    · show some (scrollUp ⟨q, res, Mode.Command, sc⟩) = _
      rw [hup]
    · intro hlen hscroll
      have hb : (res.length - 1) % 65536 = res.length - 1 :=
        Nat.mod_eq_of_lt (by omega)
      have hval : scrollDown ⟨q, res, Mode.Command, sc⟩
          = ⟨q, res, Mode.Command, min (sc + 1) (res.length - 1)⟩ := by
        unfold scrollDown
        dsimp only
        rw [hb]
        congr 1
        split <;> omega
      refine ⟨?_, ?_⟩
      · show some (scrollDown ⟨q, res, Mode.Command, sc⟩) = _
        rw [hval]
      · show some (scrollDown ⟨q, res, Mode.Command, sc⟩) = _
        rw [hval]
  · refine ⟨⟨?_, ?_⟩, ?_⟩
    · show some (scrollUp ⟨q, res, Mode.Safe, sc⟩) = _
      rw [hup]
    · show some (scrollUp ⟨q, res, Mode.Safe, sc⟩) = _
      rw [hup]
    · intro hlen hscroll
      have hb : (res.length - 1) % 65536 = res.length - 1 :=
        Nat.mod_eq_of_lt (by omega)
      have hval : scrollDown ⟨q, res, Mode.Safe, sc⟩
          = ⟨q, res, Mode.Safe, min (sc + 1) (res.length - 1)⟩ := by
        unfold scrollDown
        dsimp only
        rw [hb]
        congr 1
        split <;> omega
      refine ⟨?_, ?_⟩
      · show some (scrollDown ⟨q, res, Mode.Safe, sc⟩) = _
        rw [hval]
      · show some (scrollDown ⟨q, res, Mode.Safe, sc⟩) = _
        rw [hval]

/-- Witness for C7 amended: two result lines in Command mode; up at scroll 1
moves to 0 (unconditional clause), down at scroll 0 moves to 1 (guarded
clause with its hypotheses discharged). -/
theorem scroll_step_formula_witness :
    (Mode.Command = Mode.Command ∨ Mode.Command = Mode.Safe) ∧
    step ([] : Index) ⟨[], [codes "r1", codes "r2"], Mode.Command, 1⟩ Key.Up
      = some ⟨[], [codes "r1", codes "r2"], Mode.Command, 0⟩ ∧
    step ([] : Index) ⟨[], [codes "r1", codes "r2"], Mode.Command, 0⟩ Key.Down
      = some ⟨[], [codes "r1", codes "r2"], Mode.Command, 1⟩ :=
  ⟨Or.inl rfl,
   by
    have h := (scroll_step_formula [] ⟨[], [codes "r1", codes "r2"], Mode.Command, 1⟩
      (Or.inl rfl)).1.1
    rw [h]
    decide,
   by
    have h := ((scroll_step_formula [] ⟨[], [codes "r1", codes "r2"], Mode.Command, 0⟩
      (Or.inl rfl)).2 (by decide) (by decide)).1
    rw [h]
    decide⟩

/-- Counterexample for C7 as stated: with 65537 result lines and scroll 0 in
Command mode, the quantity `results.len().saturating_sub(1) as u16` truncates
to 0, so a down event leaves scroll at 0, while the claimed formula
`min (scroll+1, max 0 (len(results)-1))` demands 1. -/
theorem scroll_down_truncation_counterexample :
    step ([] : Index) ⟨[], List.replicate 65537 (codes "r"), Mode.Command, 0⟩ Key.Down
        = some ⟨[], List.replicate 65537 (codes "r"), Mode.Command, 0⟩ ∧
      min (0 + 1) ((List.replicate 65537 (codes "r")).length - 1) ≠ 0 := by
  constructor
  · rw [step_command_down]
    have key : ∀ res : List Str, res.length = 65537 →
        scrollDown ⟨[], res, Mode.Command, 0⟩ = ⟨[], res, Mode.Command, 0⟩ := by
      intro res h
      simp only [scrollDown, h]
      norm_num
    rw [key _ (List.length_replicate 65537 (codes "r"))]
  · rw [List.length_replicate]
    norm_num

end Helios
